import Mathlib

/-!
Verification of the EasyFlash STM32F10x flash port
(`demo/stm32f10x/components/flash/port/flash_port.c`).

The flash medium is modelled at word granularity: a memory is a function
from byte addresses to the 32-bit word stored at that (word-aligned)
address.  All loops in the source access the medium through `uint32_t`
pointers at addresses stepping by 4, so this keying is faithful for the
word-aligned accesses the port performs.

The ST standard-peripheral primitives `FLASH_ErasePage` and
`FLASH_ProgramWord` are external hardware collaborators (not part of this
repository); they are abstracted as a `FlashHW` structure, and theorems
assume only the locality/correctness facts the medium guarantees
(an erase affects exactly its page, a program affects exactly its word).
`FLASH_Unlock`, `FLASH_Lock` and `FLASH_ClearFlag` manipulate controller
registers only, never stored words, and are therefore not part of the
state.
-/

namespace EasyFlash

/-- Flash medium content: the 32-bit word stored at each byte address. -/
def Mem : Type := Nat → Nat

/-- Modelled from the spec: the result kinds of `FlashErrCode` declared in
`flash.h`, which is not under `src/`.  The port uses `FLASH_NO_ERR` (Ok),
`FLASH_ERASE_ERR` (EraseFailure) and `FLASH_WRITE_ERR`
(WriteVerifyFailure). -/
inductive FlashErrCode where
  | FLASH_NO_ERR
  | FLASH_ERASE_ERR
  | FLASH_WRITE_ERR
  deriving DecidableEq

/-- Abstract hardware interface for the external ST library primitives.
`erasePage a m` returns whether `FLASH_ErasePage` reported
`FLASH_COMPLETE` together with the medium afterwards; `programWord a v m`
is the medium after `FLASH_ProgramWord(a, v)`. -/
structure FlashHW where
  erasePage : Nat → Mem → Bool × Mem
  programWord : Nat → Nat → Mem → Mem

/-- Erased state of a word: all one bits. -/
def erasedWord : Nat := 2 ^ 32 - 1

/-- Page size for STM32F10x low/medium density parts (`PAGE_SIZE`). -/
def PAGE_SIZE_MD : Nat := 1024

/-- Page size for the other STM32F10x parts (`PAGE_SIZE`). -/
def PAGE_SIZE_HD : Nat := 2048

/-- Base address of STM32F10x on-chip flash (`FLASH_BASE`, from the
external device header). -/
def FLASH_BASE : Nat := 0x08000000

/-- Environment variables start address (`FLASH_ENV_START_ADDR`):
100 KB from the chip base. -/
def FLASH_ENV_START_ADDR : Nat := FLASH_BASE + 100 * 1024

/-- Environment variables byte size (`FLASH_ENV_SECTION_SIZE`): one page. -/
def FLASH_ENV_SECTION_SIZE (pageSize : Nat) : Nat := 1 * pageSize

/-- Default environment variable set (`default_env_set`), an ordered list
of key/value string pairs. -/
def default_env_set : List (String × String) :=
  [("iap_need_copy_app", "0"),
   ("iap_copy_app_size", "0"),
   ("stop_in_bootloader", "0"),
   ("device_id", "1"),
   ("boot_times", "0")]

/-- Modelled from the spec: `FLASH_ASSERT` is declared in `flash.h`, which
is not under `src/`.  Per the spec it is an assertion-class fatal
configuration fault, not a recoverable result; a failed assertion is
modelled as `none` (no value is ever returned), a passed one as `some`. -/
def FLASH_ASSERT {α : Type} (cond : Prop) [Decidable cond] (k : α) : Option α :=
  if cond then some k else none

/-- Embedding of `flash_port_init`.  The in/out parameters are modelled
functionally: the input is the caller's `*env_size` hint, the output is
the tuple of values stored through the four out-parameters
`(result, *env_addr, *env_size, *default_env, *default_env_size)`.
The function first asserts `(*env_size) % 4 == 0`, then overwrites every
out-parameter with the fixed configured values. -/
def flash_port_init (pageSize envSizeHint : Nat) :
    Option (FlashErrCode × Nat × Nat × List (String × String) × Nat) :=
  FLASH_ASSERT (envSizeHint % 4 = 0)
    (FlashErrCode.FLASH_NO_ERR, FLASH_ENV_START_ADDR,
      FLASH_ENV_SECTION_SIZE pageSize, default_env_set,
      default_env_set.length)

/-- Embedding of the copy loop of `flash_read`:
`for (; size > 0; size--, addr += 4, buf++) *buf = *(uint32_t *) addr;`
Each iteration copies one word and steps the address by 4, so the `size`
parameter counts words. -/
def flash_read_words (m : Mem) : Nat → Nat → List Nat
  | _, 0 => []
  | addr, n + 1 => m addr :: flash_read_words m (addr + 4) n

/-- Embedding of `flash_read`: returns the result code, the words copied
into the caller buffer, and the medium (which `flash_read` never
modifies). -/
def flash_read (m : Mem) (addr size : Nat) : FlashErrCode × List Nat × Mem :=
  (FlashErrCode.FLASH_NO_ERR, flash_read_words m addr size, m)

/-- Embedding of the page-count computation of `flash_erase`:
`erase_pages = size / PAGE_SIZE; if (size % PAGE_SIZE != 0) erase_pages++;` -/
def erase_pages_count (pageSize size : Nat) : Nat :=
  size / pageSize + (if size % pageSize ≠ 0 then 1 else 0)

/-- Embedding of the erase loop of `flash_erase`: pages `i, i+1, ...`
(`n` of them remain) are erased at `addr + PAGE_SIZE * i`, strictly
sequentially; on the first page whose status is not `FLASH_COMPLETE` the
loop breaks with `FLASH_ERASE_ERR`. -/
def flash_erase_from (hw : FlashHW) (ps addr : Nat) : Nat → Nat → Mem → FlashErrCode × Mem
  | _, 0, m => (FlashErrCode.FLASH_NO_ERR, m)
  | i, n + 1, m =>
    let r := hw.erasePage (addr + ps * i) m
    if r.1 then flash_erase_from hw ps addr (i + 1) n r.2
    else (FlashErrCode.FLASH_ERASE_ERR, r.2)

/-- Embedding of `flash_erase` for a medium with page size `ps`. -/
def flash_erase (hw : FlashHW) (ps addr size : Nat) (m : Mem) : FlashErrCode × Mem :=
  flash_erase_from hw ps addr 0 (erase_pages_count ps size) m

/-- Number of iterations of the `flash_write` loop
`for (i = 0; i < size; i += 4, ...)`: one per started word of `size`
bytes. -/
def words_of_size (size : Nat) : Nat := (size + 3) / 4

/-- Embedding of the program/verify loop of `flash_write`: for each word,
program it with `FLASH_ProgramWord`, read the same address back and
compare; on the first mismatch break with `FLASH_WRITE_ERR`. -/
def flash_write_loop (hw : FlashHW) : Nat → List Nat → Mem → FlashErrCode × Mem
  | _, [], m => (FlashErrCode.FLASH_NO_ERR, m)
  | addr, v :: rest, m =>
    let m1 := hw.programWord addr v m
    if m1 addr = v then flash_write_loop hw (addr + 4) rest m1
    else (FlashErrCode.FLASH_WRITE_ERR, m1)

/-- Embedding of `flash_write`: the caller buffer `buf` must hold the
`ceil(size / 4)` words the loop reads (the C caller contract); the loop
consumes exactly that many. -/
def flash_write (hw : FlashHW) (addr : Nat) (buf : List Nat) (size : Nat) (m : Mem) :
    FlashErrCode × Mem :=
  flash_write_loop hw addr (buf.take (words_of_size size)) m

/-- Pointwise update of one word of the medium. -/
def updateWord (a v : Nat) (m : Mem) : Mem :=
  fun x => if x = a then v else m x

/-- Medium after a successful page erase at `a`: every word slot of
`[a, a + ps)` holds the erased all-one-bits value. -/
def erasePageMem (ps a : Nat) (m : Mem) : Mem :=
  fun x => if a ≤ x ∧ x < a + ps then erasedWord else m x

/-- Ideal hardware: every page erase succeeds and every word program
sticks. -/
def idealHW (ps : Nat) : FlashHW where
  erasePage := fun a m => (true, erasePageMem ps a m)
  programWord := updateWord

/-- Hardware whose page erase fails (status not `FLASH_COMPLETE`) exactly
at page address `bad`, leaving the medium unchanged there. -/
def eraseFailHW (ps bad : Nat) : FlashHW where
  erasePage := fun a m => if a = bad then (false, m) else (true, erasePageMem ps a m)
  programWord := updateWord

/-- Hardware whose word program silently fails (the cell keeps its old
content, so the readback mismatches) exactly at word address `bad`. -/
def progFailHW (ps bad : Nat) : FlashHW where
  erasePage := fun a m => (true, erasePageMem ps a m)
  programWord := fun a v m => if a = bad then m else updateWord a v m

/-- Locality/correctness of the medium's page erase: an erase call at `a`
never changes a word outside `[a, a + ps)`, and when it reports success
every word of `[a, a + ps)` is in the erased state. -/
def HWEraseLocal (hw : FlashHW) (ps : Nat) : Prop :=
  ∀ a m,
    (∀ x, x < a ∨ a + ps ≤ x → (hw.erasePage a m).2 x = m x) ∧
    ((hw.erasePage a m).1 = true →
      ∀ x, a ≤ x → x < a + ps → (hw.erasePage a m).2 x = erasedWord)

/-- A medium on which every page erase reports success. -/
def HWEraseTotal (hw : FlashHW) : Prop :=
  ∀ a m, (hw.erasePage a m).1 = true

/-- Locality of the medium's word program: programming word `a` never
changes any other word. -/
def HWProgLocal (hw : FlashHW) : Prop :=
  ∀ a v m x, x ≠ a → hw.programWord a v m x = m x

/-- A medium on which every word program sticks (the programmed address
reads back the programmed value). -/
def HWProgExact (hw : FlashHW) : Prop :=
  ∀ a v m, hw.programWord a v m a = v

/-- Medium with every word in the erased state. -/
def memAllErased : Mem := fun _ => erasedWord

/-- Medium with every word zero (fully programmed). -/
def memZero : Mem := fun _ => 0

/-- Concrete data of the spec's write/read round-trip scenario:
`[0xAAAAAAAA, 0x55555555]`. -/
def demoWords : List Nat := [0xAAAAAAAA, 0x55555555]

/-! ## Helper lemmas -/

/-- The read loop produces exactly as many words as requested. -/
theorem flash_read_words_length (m : Mem) :
    ∀ (n addr : Nat), (flash_read_words m addr n).length = n := by
  intro n
  induction n with
  | zero => intro addr; rfl
  | succ n ih => intro addr; simp [flash_read_words, ih]

/-- The `j`-th word produced by the read loop is the word of the medium at
`addr + 4 * j`. -/
theorem flash_read_words_getD (m : Mem) :
    ∀ (n addr j : Nat), j < n →
      (flash_read_words m addr n).getD j 0 = m (addr + 4 * j) := by
  intro n
  induction n with
  | zero => intro addr j h; omega
  | succ n ih =>
    intro addr j h
    cases j with
    | zero => simp [flash_read_words]
    | succ j =>
      simp only [flash_read_words, List.getD_cons_succ]
      rw [ih (addr + 4) j (by omega)]
      have harith : addr + 4 + 4 * j = addr + 4 * (j + 1) := by ring
      rw [harith]

/-- Reading back a range whose words agree with a list reproduces the
list. -/
theorem flash_read_words_id (m : Mem) :
    ∀ (l : List Nat) (addr : Nat),
      (∀ j, j < l.length → m (addr + 4 * j) = l.getD j 0) →
      flash_read_words m addr l.length = l := by
  intro l
  induction l with
  | nil => intro addr _; rfl
  | cons v rest ih =>
    intro addr h
    simp only [List.length_cons, flash_read_words]
    congr 1
    · have := h 0 (by simp)
      simpa using this
    · apply ih
      intro j hj
      have := h (j + 1) (by simp only [List.length_cons]; omega)
      have harith : addr + 4 * (j + 1) = addr + 4 + 4 * j := by ring
      rw [harith] at this
      simpa using this

/-- Taking a prefix does not change the entries before the cut. -/
theorem getD_take_eq (l : List Nat) :
    ∀ (n j : Nat), j < n → (l.take n).getD j 0 = l.getD j 0 := by
  induction l with
  | nil => intro n j _; simp
  | cons v rest ih =>
    intro n j h
    cases n with
    | zero => omega
    | succ n =>
      cases j with
      | zero => simp [List.take_succ_cons]
      | succ j =>
        simp only [List.take_succ_cons, List.getD_cons_succ]
        exact ih n j (by omega)

/-- The page count computed by `flash_erase` is the ceiling of
`size / ps`. -/
theorem erase_pages_count_eq_ceil (ps size : Nat) (hps : 0 < ps) :
    erase_pages_count ps size = (size + ps - 1) / ps := by
  have hqr := Nat.div_add_mod size ps
  have hlt := Nat.mod_lt size hps
  by_cases hr : size % ps = 0
  · have h1 : size + ps - 1 = ps * (size / ps) + (ps - 1) := by omega
    have h3 : (ps - 1) / ps = 0 := Nat.div_eq_of_lt (by omega)
    have h2 : (size + ps - 1) / ps = size / ps := by
      rw [h1, Nat.mul_add_div hps, h3, Nat.add_zero]
    rw [h2]
    simp [erase_pages_count, hr]
  · have h1 : size + ps - 1 = ps * (size / ps + 1) + (size % ps - 1) := by
      rw [Nat.mul_add, Nat.mul_one]
      omega
    have h3 : (size % ps - 1) / ps = 0 := Nat.div_eq_of_lt (by omega)
    have h2 : (size + ps - 1) / ps = size / ps + 1 := by
      rw [h1, Nat.mul_add_div hps, h3, Nat.add_zero]
    rw [h2]
    simp [erase_pages_count, hr]

/-- The ideal hardware's page erase is local and correct. -/
theorem idealHW_eraseLocal (ps : Nat) : HWEraseLocal (idealHW ps) ps := by
  intro a m
  constructor
  · intro x hx
    simp only [idealHW, erasePageMem]
    rw [if_neg (by omega)]
  · intro _ x h1 h2
    simp only [idealHW, erasePageMem]
    rw [if_pos ⟨h1, h2⟩]

/-- The ideal hardware's page erase always succeeds. -/
theorem idealHW_eraseTotal (ps : Nat) : HWEraseTotal (idealHW ps) :=
  fun _ _ => rfl

/-- The ideal hardware's word program is local. -/
theorem idealHW_progLocal (ps : Nat) : HWProgLocal (idealHW ps) := by
  intro a v m x hx
  simp [idealHW, updateWord, hx]

/-- The ideal hardware's word program sticks. -/
theorem idealHW_progExact (ps : Nat) : HWProgExact (idealHW ps) := by
  intro a v m
  simp [idealHW, updateWord]

/-- The single-failing-page hardware's page erase is local and correct. -/
theorem eraseFailHW_eraseLocal (ps bad : Nat) :
    HWEraseLocal (eraseFailHW ps bad) ps := by
  intro a m
  by_cases hab : a = bad
  · constructor
    · intro x _
      simp [eraseFailHW, hab]
    · intro hst
      simp [eraseFailHW, hab] at hst
  · constructor
    · intro x hx
      simp only [eraseFailHW, if_neg hab, erasePageMem]
      rw [if_neg (by omega)]
    · intro _ x h1 h2
      simp only [eraseFailHW, if_neg hab, erasePageMem]
      rw [if_pos ⟨h1, h2⟩]

/-- The single-failing-word hardware's word program is local. -/
theorem progFailHW_progLocal (ps bad : Nat) : HWProgLocal (progFailHW ps bad) := by
  intro a v m x hx
  by_cases hab : a = bad
  · simp [progFailHW, hab]
  · simp [progFailHW, hab, updateWord, hx]

/-! ## Claims about `flash_port_init` and `flash_read` -/

/-- C5: `flash_port_init` is authoritative for every size hint that passes
the alignment assertion: it overrides the hint with the fixed
medium-derived region (`FLASH_ENV_START_ADDR`, one page) and the fixed
ordered default dataset of five entries whose fourth entry is
`("device_id", "1")`; any two calls with the same configuration yield
identical results. -/
theorem flash_port_init_fixed_region (ps hint : Nat) (h4 : hint % 4 = 0) :
    flash_port_init ps hint
      = some (FlashErrCode.FLASH_NO_ERR, FLASH_ENV_START_ADDR,
          FLASH_ENV_SECTION_SIZE ps, default_env_set, 5) ∧
    FLASH_ENV_SECTION_SIZE ps = 1 * ps ∧
    default_env_set.getD 3 ("", "") = ("device_id", "1") ∧
    ("device_id", "1") ∈ default_env_set ∧
    (∀ hint2, hint2 % 4 = 0 → flash_port_init ps hint2 = flash_port_init ps hint) := by
  refine ⟨?_, rfl, rfl, ?_, ?_⟩
  · simp [flash_port_init, FLASH_ASSERT, h4, default_env_set]
  · show ("device_id", "1") ∈ default_env_set
    rw [default_env_set]
    exact List.Mem.tail _ (List.Mem.tail _ (List.Mem.tail _ (List.Mem.head _)))
  · intro hint2 h2
    simp [flash_port_init, FLASH_ASSERT, h2, h4]

/-- Witness for C5 at page size 1024 and hint 0. -/
theorem flash_port_init_fixed_region_witness :
    flash_port_init 1024 0
      = some (FlashErrCode.FLASH_NO_ERR, FLASH_ENV_START_ADDR,
          FLASH_ENV_SECTION_SIZE 1024, default_env_set, 5) ∧
    FLASH_ENV_SECTION_SIZE 1024 = 1 * 1024 ∧
    default_env_set.getD 3 ("", "") = ("device_id", "1") ∧
    ("device_id", "1") ∈ default_env_set ∧
    (∀ hint2, hint2 % 4 = 0 → flash_port_init 1024 hint2 = flash_port_init 1024 0) :=
  flash_port_init_fixed_region 1024 0 (by decide)

/-- C5 counterexample: at the misaligned size hint 3 the claim's universal
statement fails — `flash_port_init` does not return the fixed region, it
hits the fatal `FLASH_ASSERT` (modelled as `none`). -/
theorem flash_port_init_misaligned_hint_counterexample :
    flash_port_init 1024 3 = none ∧ ∀ r, flash_port_init 1024 3 ≠ some r := by
  constructor
  · simp [flash_port_init, FLASH_ASSERT]
  · intro r h
    simp [flash_port_init, FLASH_ASSERT] at h

/-- C6: `flash_port_init` with a size hint not divisible by 4 triggers the
assertion-class fault before producing any value, never a silent
truncation; with a hint divisible by 4 the assertion passes and a value is
produced. -/
theorem flash_port_init_alignment_assert (ps hint : Nat) :
    (hint % 4 ≠ 0 → flash_port_init ps hint = none) ∧
    (hint % 4 = 0 → Option.isSome (flash_port_init ps hint) = true) := by
  constructor
  · intro h
    simp [flash_port_init, FLASH_ASSERT, h]
  · intro h
    simp [flash_port_init, FLASH_ASSERT, h]

/-- Witness for C6: hint 3 faults, hint 4 passes. -/
theorem flash_port_init_alignment_assert_witness :
    flash_port_init 1024 3 = none ∧
    Option.isSome (flash_port_init 1024 4) = true :=
  ⟨(flash_port_init_alignment_assert 1024 3).1 (by decide),
   (flash_port_init_alignment_assert 1024 4).2 (by decide)⟩

/-- C7: for a word-aligned address, `flash_read` copies exactly
`count_words` words verbatim, left to right with the address stepping by
4 per word, returns `FLASH_NO_ERR` unconditionally, and leaves the medium
unchanged. -/
theorem flash_read_copies_words (m : Mem) (addr n : Nat) (halign : addr % 4 = 0) :
    (flash_read m addr n).1 = FlashErrCode.FLASH_NO_ERR ∧
    (flash_read m addr n).2.2 = m ∧
    ((flash_read m addr n).2.1).length = n ∧
    (∀ j, j < n → ((flash_read m addr n).2.1).getD j 0 = m (addr + 4 * j)) := by
  exact ⟨rfl, rfl, flash_read_words_length m n addr,
    fun j hj => flash_read_words_getD m n addr j hj⟩

/-- Witness for C7: reading 3 words at address 0 of the all-erased
medium. -/
theorem flash_read_copies_words_witness :
    (flash_read memAllErased 0 3).1 = FlashErrCode.FLASH_NO_ERR ∧
    (flash_read memAllErased 0 3).2.2 = memAllErased ∧
    ((flash_read memAllErased 0 3).2.1).length = 3 ∧
    (∀ j, j < 3 → ((flash_read memAllErased 0 3).2.1).getD j 0 = memAllErased (0 + 4 * j)) :=
  flash_read_copies_words memAllErased 0 3 (by decide)

/-- C9: `flash_erase` with `size = 0` computes zero pages, erases nothing
(the medium is returned unchanged at every address) and returns
`FLASH_NO_ERR`. -/
theorem flash_erase_zero_size (hw : FlashHW) (ps addr : Nat) (m : Mem) :
    flash_erase hw ps addr 0 m = (FlashErrCode.FLASH_NO_ERR, m) ∧
    erase_pages_count ps 0 = 0 := by
  have hc : erase_pages_count ps 0 = 0 := by
    simp [erase_pages_count, Nat.zero_div, Nat.zero_mod]
  exact ⟨by rw [flash_erase, hc]; rfl, hc⟩

/-! ## The erase loop -/

/-- Characterization of the erase loop on a local/correct medium: either
the loop reports success, every word of the processed pages is erased and
nothing else changed, or it stops at a first failing page `k`, every word
of the pages before `k` is erased, and nothing outside the attempted
pages (up to and including page `k`) changed. -/
theorem flash_erase_from_spec (hw : FlashHW) (ps : Nat) (hps : 0 < ps)
    (hloc : HWEraseLocal hw ps) (addr : Nat) :
    ∀ (n i : Nat) (m : Mem),
      ((flash_erase_from hw ps addr i n m).1 = FlashErrCode.FLASH_NO_ERR ∧
        (∀ x, addr + ps * i ≤ x → x < addr + ps * (i + n) →
          (flash_erase_from hw ps addr i n m).2 x = erasedWord) ∧
        (∀ x, x < addr + ps * i ∨ addr + ps * (i + n) ≤ x →
          (flash_erase_from hw ps addr i n m).2 x = m x)) ∨
      (∃ k, i ≤ k ∧ k < i + n ∧
        (flash_erase_from hw ps addr i n m).1 = FlashErrCode.FLASH_ERASE_ERR ∧
        (∀ x, addr + ps * i ≤ x → x < addr + ps * k →
          (flash_erase_from hw ps addr i n m).2 x = erasedWord) ∧
        (∀ x, x < addr + ps * i ∨ addr + ps * (k + 1) ≤ x →
          (flash_erase_from hw ps addr i n m).2 x = m x)) := by
  intro n
  induction n with
  | zero =>
    intro i m
    left
    refine ⟨rfl, ?_, fun x _ => rfl⟩
    intro x h1 h2
    simp only [Nat.add_zero] at h2
    omega
  | succ n ih =>
    intro i m
    obtain ⟨hl, hs⟩ := hloc (addr + ps * i) m
    have hmul1 : ps * (i + 1) = ps * i + ps := by ring
    have hmul2 : ps * (i + (n + 1)) = ps * i + ps + ps * n := by ring
    have hmul3 : ps * (i + 1 + n) = ps * i + ps + ps * n := by ring
    by_cases hst : (hw.erasePage (addr + ps * i) m).1 = true
    · have heq : flash_erase_from hw ps addr i (n + 1) m
          = flash_erase_from hw ps addr (i + 1) n (hw.erasePage (addr + ps * i) m).2 := by
        simp [flash_erase_from, hst]
      rcases ih (i + 1) (hw.erasePage (addr + ps * i) m).2 with
        ⟨h1, h2, h3⟩ | ⟨k, hk1, hk2, h1, h2, h3⟩
      · left
        rw [heq]
        refine ⟨h1, ?_, ?_⟩
        · intro x hx1 hx2
          by_cases hx : x < addr + ps * (i + 1)
          · rw [h3 x (Or.inl hx)]
            exact hs hst x hx1 (by omega)
          · exact h2 x (by omega) (by omega)
        · intro x hx
          rw [h3 x (by omega)]
          exact hl x (by omega)
      · right
        have hmono : ps * (i + 1) ≤ ps * (k + 1) :=
          Nat.mul_le_mul_left ps (by omega)
        refine ⟨k, by omega, by omega, ?_, ?_, ?_⟩
        · rw [heq]
          exact h1
        · intro x hx1 hx2
          rw [heq]
          by_cases hx : x < addr + ps * (i + 1)
          · rw [h3 x (Or.inl hx)]
            exact hs hst x hx1 (by omega)
          · exact h2 x (by omega) hx2
        · intro x hx
          rw [heq, h3 x (by omega)]
          exact hl x (by omega)
    · have heq : flash_erase_from hw ps addr i (n + 1) m
          = (FlashErrCode.FLASH_ERASE_ERR, (hw.erasePage (addr + ps * i) m).2) := by
        simp [flash_erase_from, hst]
      right
      refine ⟨i, Nat.le_refl i, by omega, by rw [heq], ?_, ?_⟩
      · intro x hx1 hx2
        omega
      · intro x hx
        rw [heq]
        exact hl x (by omega)

/-- On a medium whose page erase always reports success, the erase loop
reports success. -/
theorem flash_erase_from_total (hw : FlashHW) (ps addr : Nat)
    (htot : HWEraseTotal hw) :
    ∀ (n i : Nat) (m : Mem),
      (flash_erase_from hw ps addr i n m).1 = FlashErrCode.FLASH_NO_ERR := by
  intro n
  induction n with
  | zero => intro i m; rfl
  | succ n ih =>
    intro i m
    have hst := htot (addr + ps * i) m
    simp only [flash_erase_from, hst, if_true]
    exact ih (i + 1) _

/-- C2: whenever `flash_erase` returns Ok on a local/correct medium, it
has erased exactly `ceil(size / ps)` pages: the page count equals
`(size + ps - 1) / ps`, every word of
`[addr, addr + pages * ps)` is in the erased all-one-bits state, no word
outside that range changed, and in particular with page size 1024 a
request of 1500 bytes erases exactly 2 pages. -/
theorem flash_erase_ok_ceil_pages_erased (hw : FlashHW) (ps addr size : Nat)
    (m : Mem) (hps : 0 < ps) (hloc : HWEraseLocal hw ps)
    (hok : (flash_erase hw ps addr size m).1 = FlashErrCode.FLASH_NO_ERR) :
    erase_pages_count ps size = (size + ps - 1) / ps ∧
    erase_pages_count 1024 1500 = 2 ∧
    (∀ x, addr ≤ x → x < addr + ps * erase_pages_count ps size →
      (flash_erase hw ps addr size m).2 x = erasedWord) ∧
    (∀ x, x < addr ∨ addr + ps * erase_pages_count ps size ≤ x →
      (flash_erase hw ps addr size m).2 x = m x) := by
  have hunfold : flash_erase hw ps addr size m
      = flash_erase_from hw ps addr 0 (erase_pages_count ps size) m := rfl
  rcases flash_erase_from_spec hw ps hps hloc addr (erase_pages_count ps size) 0 m with
    ⟨_, h2, h3⟩ | ⟨k, _, _, h1, _, _⟩
  · simp only [Nat.mul_zero, Nat.add_zero, Nat.zero_add] at h2 h3
    exact ⟨erase_pages_count_eq_ceil ps size hps, by decide,
      fun x hx1 hx2 => by rw [hunfold]; exact h2 x hx1 hx2,
      fun x hx => by rw [hunfold]; exact h3 x hx⟩
  · rw [hunfold, h1] at hok
    exact FlashErrCode.noConfusion hok

/-- Witness for C2: the ideal medium, page size 1024, erase of 1500 bytes
at address 0 of the all-zero medium. -/
theorem flash_erase_ok_ceil_pages_erased_witness :
    erase_pages_count 1024 1500 = (1500 + 1024 - 1) / 1024 ∧
    erase_pages_count 1024 1500 = 2 ∧
    (∀ x, 0 ≤ x → x < 0 + 1024 * erase_pages_count 1024 1500 →
      (flash_erase (idealHW 1024) 1024 0 1500 memZero).2 x = erasedWord) ∧
    (∀ x, x < 0 ∨ 0 + 1024 * erase_pages_count 1024 1500 ≤ x →
      (flash_erase (idealHW 1024) 1024 0 1500 memZero).2 x = memZero x) :=
  flash_erase_ok_ceil_pages_erased (idealHW 1024) 1024 0 1500 memZero
    (by decide) (idealHW_eraseLocal 1024) (by decide)

/-- C4: whenever `flash_erase` reports `FLASH_ERASE_ERR` on a
local/correct medium, it stopped at a first failing page `k` within the
computed page count: every word of the pages before `k` is erased, and no
word outside the attempted pages (through page `k`) changed — in
particular no page after the failing one was touched. -/
theorem flash_erase_stops_at_first_failure (hw : FlashHW) (ps addr size : Nat)
    (m : Mem) (hps : 0 < ps) (hloc : HWEraseLocal hw ps)
    (hfail : (flash_erase hw ps addr size m).1 = FlashErrCode.FLASH_ERASE_ERR) :
    ∃ k, k < erase_pages_count ps size ∧
      (∀ x, addr ≤ x → x < addr + ps * k →
        (flash_erase hw ps addr size m).2 x = erasedWord) ∧
      (∀ x, x < addr ∨ addr + ps * (k + 1) ≤ x →
        (flash_erase hw ps addr size m).2 x = m x) := by
  have hunfold : flash_erase hw ps addr size m
      = flash_erase_from hw ps addr 0 (erase_pages_count ps size) m := rfl
  rcases flash_erase_from_spec hw ps hps hloc addr (erase_pages_count ps size) 0 m with
    ⟨h1, _, _⟩ | ⟨k, _, hk2, _, h2, h3⟩
  · rw [hunfold, h1] at hfail
    exact FlashErrCode.noConfusion hfail
  · simp only [Nat.mul_zero, Nat.add_zero, Nat.zero_add] at h2 h3 hk2
    exact ⟨k, hk2,
      fun x hx1 hx2 => by rw [hunfold]; exact h2 x hx1 hx2,
      fun x hx => by rw [hunfold]; exact h3 x hx⟩

/-- Witness for C4: a medium whose second page (address 1024) fails to
erase, page size 1024, erase of 1500 bytes at address 0. -/
theorem flash_erase_stops_at_first_failure_witness :
    ∃ k, k < erase_pages_count 1024 1500 ∧
      (∀ x, 0 ≤ x → x < 0 + 1024 * k →
        (flash_erase (eraseFailHW 1024 1024) 1024 0 1500 memZero).2 x = erasedWord) ∧
      (∀ x, x < 0 ∨ 0 + 1024 * (k + 1) ≤ x →
        (flash_erase (eraseFailHW 1024 1024) 1024 0 1500 memZero).2 x = memZero x) :=
  flash_erase_stops_at_first_failure (eraseFailHW 1024 1024) 1024 0 1500 memZero
    (by decide) (eraseFailHW_eraseLocal 1024 1024) (by decide)

/-- C8: `flash_erase` is idempotent — on a medium whose page erase always
succeeds, erasing a range that is already fully erased returns Ok and
leaves every word of the medium unchanged. -/
theorem flash_erase_idempotent (hw : FlashHW) (ps addr size : Nat) (m : Mem)
    (hps : 0 < ps) (hloc : HWEraseLocal hw ps) (htot : HWEraseTotal hw)
    (herased : ∀ x, addr ≤ x → x < addr + ps * erase_pages_count ps size →
      m x = erasedWord) :
    (flash_erase hw ps addr size m).1 = FlashErrCode.FLASH_NO_ERR ∧
    (∀ x, (flash_erase hw ps addr size m).2 x = m x) := by
  have hunfold : flash_erase hw ps addr size m
      = flash_erase_from hw ps addr 0 (erase_pages_count ps size) m := rfl
  have hok := flash_erase_from_total hw ps addr htot (erase_pages_count ps size) 0 m
  refine ⟨by rw [hunfold]; exact hok, ?_⟩
  rcases flash_erase_from_spec hw ps hps hloc addr (erase_pages_count ps size) 0 m with
    ⟨_, h2, h3⟩ | ⟨k, _, _, h1, _, _⟩
  · simp only [Nat.mul_zero, Nat.add_zero, Nat.zero_add] at h2 h3
    intro x
    by_cases hx : addr ≤ x ∧ x < addr + ps * erase_pages_count ps size
    · rw [hunfold, h2 x hx.1 hx.2, herased x hx.1 hx.2]
    · rw [hunfold, h3 x (by omega)]
  · rw [h1] at hok
    exact FlashErrCode.noConfusion hok

/-- Witness for C8: re-erasing one already-erased page of the all-erased
medium on the ideal hardware. -/
theorem flash_erase_idempotent_witness :
    (flash_erase (idealHW 1024) 1024 0 1024 memAllErased).1 = FlashErrCode.FLASH_NO_ERR ∧
    (∀ x, (flash_erase (idealHW 1024) 1024 0 1024 memAllErased).2 x = memAllErased x) :=
  flash_erase_idempotent (idealHW 1024) 1024 0 1024 memAllErased
    (by decide) (idealHW_eraseLocal 1024) (idealHW_eraseTotal 1024)
    (fun x _ _ => rfl)

/-! ## The program/verify loop -/

/-- Characterization of the program/verify loop on a medium with local
word programs: either every readback matched, the loop reports success,
every word of the buffer is persisted at its address and nothing else
changed; or the loop stopped at the first mismatching word `k`, reports
`FLASH_WRITE_ERR`, the words before `k` are persisted as programmed, the
word at `k` does not read back its intended value, and no address outside
the attempted words (through word `k`) changed. -/
theorem flash_write_loop_spec (hw : FlashHW) (hloc : HWProgLocal hw) :
    ∀ (buf : List Nat) (addr : Nat) (m : Mem),
      ((flash_write_loop hw addr buf m).1 = FlashErrCode.FLASH_NO_ERR ∧
        (∀ j, j < buf.length →
          (flash_write_loop hw addr buf m).2 (addr + 4 * j) = buf.getD j 0) ∧
        (∀ x, (∀ j, j < buf.length → x ≠ addr + 4 * j) →
          (flash_write_loop hw addr buf m).2 x = m x)) ∨
      (∃ k, k < buf.length ∧
        (flash_write_loop hw addr buf m).1 = FlashErrCode.FLASH_WRITE_ERR ∧
        (∀ j, j < k →
          (flash_write_loop hw addr buf m).2 (addr + 4 * j) = buf.getD j 0) ∧
        (flash_write_loop hw addr buf m).2 (addr + 4 * k) ≠ buf.getD k 0 ∧
        (∀ x, (∀ j, j ≤ k → x ≠ addr + 4 * j) →
          (flash_write_loop hw addr buf m).2 x = m x)) := by
  intro buf
  induction buf with
  | nil =>
    intro addr m
    left
    exact ⟨rfl, fun j hj => by simp at hj, fun x _ => rfl⟩
  | cons v rest ih =>
    intro addr m
    by_cases hv : hw.programWord addr v m addr = v
    · have heq : flash_write_loop hw addr (v :: rest) m
          = flash_write_loop hw (addr + 4) rest (hw.programWord addr v m) := by
        simp [flash_write_loop, hv]
      rcases ih (addr + 4) (hw.programWord addr v m) with
        ⟨h1, h2, h3⟩ | ⟨k, hk, h1, h2, h4, h3⟩
      · left
        rw [heq]
        refine ⟨h1, ?_, ?_⟩
        · intro j hj
          cases j with
          | zero =>
            rw [show addr + 4 * 0 = addr from by ring,
              h3 addr (fun j _ => by omega), hv]
            simp [List.getD_cons_zero]
          | succ j =>
            rw [show addr + 4 * (j + 1) = addr + 4 + 4 * j from by ring,
              h2 j (by simp only [List.length_cons] at hj; omega)]
            simp [List.getD_cons_succ]
        · intro x hx
          rw [h3 x (fun j hj hcc =>
            hx (j + 1) (by simp only [List.length_cons]; omega) (by omega))]
          exact hloc addr v m x (fun hcc =>
            hx 0 (by simp only [List.length_cons]; omega) (by omega))
      · right
        refine ⟨k + 1, by simp only [List.length_cons]; omega, ?_, ?_, ?_, ?_⟩
        · rw [heq]
          exact h1
        · intro j hj
          rw [heq]
          cases j with
          | zero =>
            rw [show addr + 4 * 0 = addr from by ring,
              h3 addr (fun j _ => by omega), hv]
            simp [List.getD_cons_zero]
          | succ j =>
            rw [show addr + 4 * (j + 1) = addr + 4 + 4 * j from by ring,
              h2 j (by omega)]
            simp [List.getD_cons_succ]
        · rw [heq, show addr + 4 * (k + 1) = addr + 4 + 4 * k from by ring]
          simpa only [List.getD_cons_succ] using h4
        · intro x hx
          rw [heq, h3 x (fun j hj hcc => hx (j + 1) (by omega) (by omega))]
          exact hloc addr v m x (fun hcc => hx 0 (by omega) (by omega))
    · have heq : flash_write_loop hw addr (v :: rest) m
          = (FlashErrCode.FLASH_WRITE_ERR, hw.programWord addr v m) := by
        simp [flash_write_loop, hv]
      right
      refine ⟨0, by simp, by rw [heq], fun j hj => by omega, ?_, ?_⟩
      · rw [heq]
        simpa using hv
      · intro x hx
        rw [heq]
        exact hloc addr v m x (fun hcc => hx 0 (Nat.le_refl 0) (by omega))

/-- On a medium whose word program always sticks, the program/verify loop
reports success. -/
theorem flash_write_loop_total (hw : FlashHW) (hex : HWProgExact hw) :
    ∀ (buf : List Nat) (addr : Nat) (m : Mem),
      (flash_write_loop hw addr buf m).1 = FlashErrCode.FLASH_NO_ERR := by
  intro buf
  induction buf with
  | nil => intro addr m; rfl
  | cons v rest ih =>
    intro addr m
    simp only [flash_write_loop, hex addr v m, if_true]
    exact ih (addr + 4) _

/-- C3: `flash_write` programs one word at a time in order, the address
stepping by 4, verifying each by immediate readback: either all compares
match and it returns Ok with every word persisted, or it stops at the
first mismatching word `k` without attempting subsequent words, returns
`FLASH_WRITE_ERR`, the words before `k` are left as programmed and no
address beyond word `k` changed. -/
theorem flash_write_verify_first_mismatch (hw : FlashHW) (addr : Nat)
    (buf : List Nat) (m : Mem) (hloc : HWProgLocal hw) :
    ((flash_write hw addr buf (4 * buf.length) m).1 = FlashErrCode.FLASH_NO_ERR ∧
      (∀ j, j < buf.length →
        (flash_write hw addr buf (4 * buf.length) m).2 (addr + 4 * j) = buf.getD j 0) ∧
      (∀ x, (∀ j, j < buf.length → x ≠ addr + 4 * j) →
        (flash_write hw addr buf (4 * buf.length) m).2 x = m x)) ∨
    (∃ k, k < buf.length ∧
      (flash_write hw addr buf (4 * buf.length) m).1 = FlashErrCode.FLASH_WRITE_ERR ∧
      (∀ j, j < k →
        (flash_write hw addr buf (4 * buf.length) m).2 (addr + 4 * j) = buf.getD j 0) ∧
      (flash_write hw addr buf (4 * buf.length) m).2 (addr + 4 * k) ≠ buf.getD k 0 ∧
      (∀ x, (∀ j, j ≤ k → x ≠ addr + 4 * j) →
        (flash_write hw addr buf (4 * buf.length) m).2 x = m x)) := by
  have hws : words_of_size (4 * buf.length) = buf.length := by
    unfold words_of_size; omega
  have hfw : flash_write hw addr buf (4 * buf.length) m
      = flash_write_loop hw addr buf m := by
    simp only [flash_write, hws, List.take_length]
  rw [hfw]
  exact flash_write_loop_spec hw hloc buf addr m

/-- Witness for C3: a medium whose word program silently fails at address
4 — the second of the three words written at address 0. -/
theorem flash_write_verify_first_mismatch_witness :
    ((flash_write (progFailHW 1024 4) 0 [10, 20, 30] (4 * [10, 20, 30].length)
        memAllErased).1 = FlashErrCode.FLASH_NO_ERR ∧
      (∀ j, j < [10, 20, 30].length →
        (flash_write (progFailHW 1024 4) 0 [10, 20, 30] (4 * [10, 20, 30].length)
          memAllErased).2 (0 + 4 * j) = [10, 20, 30].getD j 0) ∧
      (∀ x, (∀ j, j < [10, 20, 30].length → x ≠ 0 + 4 * j) →
        (flash_write (progFailHW 1024 4) 0 [10, 20, 30] (4 * [10, 20, 30].length)
          memAllErased).2 x = memAllErased x)) ∨
    (∃ k, k < [10, 20, 30].length ∧
      (flash_write (progFailHW 1024 4) 0 [10, 20, 30] (4 * [10, 20, 30].length)
        memAllErased).1 = FlashErrCode.FLASH_WRITE_ERR ∧
      (∀ j, j < k →
        (flash_write (progFailHW 1024 4) 0 [10, 20, 30] (4 * [10, 20, 30].length)
          memAllErased).2 (0 + 4 * j) = [10, 20, 30].getD j 0) ∧
      (flash_write (progFailHW 1024 4) 0 [10, 20, 30] (4 * [10, 20, 30].length)
        memAllErased).2 (0 + 4 * k) ≠ [10, 20, 30].getD k 0 ∧
      (∀ x, (∀ j, j ≤ k → x ≠ 0 + 4 * j) →
        (flash_write (progFailHW 1024 4) 0 [10, 20, 30] (4 * [10, 20, 30].length)
          memAllErased).2 x = memAllErased x)) :=
  flash_write_verify_first_mismatch (progFailHW 1024 4) 0 [10, 20, 30]
    memAllErased (progFailHW_progLocal 1024 4)

/-- C1: the round-trip law — on a medium with local word programs, for a
word-aligned address and a buffer written over a just-erased range, if
`flash_write` returns Ok then `flash_read` of the same word count returns
exactly the written data. -/
theorem flash_write_read_roundtrip (hw : FlashHW) (addr : Nat)
    (buf : List Nat) (m : Mem) (hloc : HWProgLocal hw)
    (halign : addr % 4 = 0)
    (herased : ∀ j, j < buf.length → m (addr + 4 * j) = erasedWord)
    (hok : (flash_write hw addr buf (4 * buf.length) m).1
      = FlashErrCode.FLASH_NO_ERR) :
    flash_read ((flash_write hw addr buf (4 * buf.length) m).2) addr buf.length
      = (FlashErrCode.FLASH_NO_ERR, buf,
          (flash_write hw addr buf (4 * buf.length) m).2) := by
  have hws : words_of_size (4 * buf.length) = buf.length := by
    unfold words_of_size; omega
  have hfw : flash_write hw addr buf (4 * buf.length) m
      = flash_write_loop hw addr buf m := by
    simp only [flash_write, hws, List.take_length]
  rcases flash_write_loop_spec hw hloc buf addr m with ⟨h1, h2, h3⟩ | ⟨k, hk, h1, _, _, _⟩
  · rw [hfw]
    simp only [flash_read]
    rw [flash_read_words_id ((flash_write_loop hw addr buf m).2) buf addr h2]
  · rw [hfw, h1] at hok
    exact FlashErrCode.noConfusion hok

/-- Witness for C1: the spec scenario — writing
`[0xAAAAAAAA, 0x55555555]` onto a freshly erased 8-byte range at address
0 of the ideal medium and reading 2 words back. -/
theorem flash_write_read_roundtrip_witness :
    flash_read ((flash_write (idealHW 1024) 0 demoWords (4 * demoWords.length)
        memAllErased).2) 0 demoWords.length
      = (FlashErrCode.FLASH_NO_ERR, demoWords,
          (flash_write (idealHW 1024) 0 demoWords (4 * demoWords.length)
            memAllErased).2) :=
  flash_write_read_roundtrip (idealHW 1024) 0 demoWords memAllErased
    (idealHW_progLocal 1024) (by decide) (fun j _ => rfl) (by decide)

/-- C10: `flash_write` always programs whole 32-bit words — for a byte
size that is not a multiple of 4 it programs and verifies exactly
`ceil(size / 4)` full words on a correct medium, covering up to 3 bytes
beyond the requested size, and changes nothing outside those words. -/
theorem flash_write_whole_words (hw : FlashHW) (addr : Nat) (buf : List Nat)
    (size : Nat) (m : Mem) (hloc : HWProgLocal hw) (hex : HWProgExact hw)
    (hsize : size % 4 ≠ 0) (hlen : words_of_size size ≤ buf.length) :
    words_of_size size = (size + 3) / 4 ∧
    size < 4 * words_of_size size ∧
    4 * words_of_size size ≤ size + 3 ∧
    (flash_write hw addr buf size m).1 = FlashErrCode.FLASH_NO_ERR ∧
    (∀ j, j < words_of_size size →
      (flash_write hw addr buf size m).2 (addr + 4 * j) = buf.getD j 0) ∧
    (∀ x, (∀ j, j < words_of_size size → x ≠ addr + 4 * j) →
      (flash_write hw addr buf size m).2 x = m x) := by
  have htl : (buf.take (words_of_size size)).length = words_of_size size := by
    rw [List.length_take]; omega
  have hfw : flash_write hw addr buf size m
      = flash_write_loop hw addr (buf.take (words_of_size size)) m := by
    simp only [flash_write]
  have hok := flash_write_loop_total hw hex (buf.take (words_of_size size)) addr m
  rcases flash_write_loop_spec hw hloc (buf.take (words_of_size size)) addr m with
    ⟨h1, h2, h3⟩ | ⟨k, hk, h1, _, _, _⟩
  · refine ⟨rfl, by unfold words_of_size; omega, by unfold words_of_size; omega,
      ?_, ?_, ?_⟩
    · rw [hfw]
      exact h1
    · intro j hj
      rw [hfw, h2 j (by rw [htl]; exact hj),
        getD_take_eq buf (words_of_size size) j hj]
    · intro x hx
      rw [hfw]
      exact h3 x (fun j hj => hx j (by rw [htl] at hj; exact hj))
  · rw [h1] at hok
    exact FlashErrCode.noConfusion hok

/-- Witness for C10: writing 5 bytes from a 2-word buffer at address 0 of
the all-zero medium on the ideal hardware programs 2 full words
(8 bytes). -/
theorem flash_write_whole_words_witness :
    words_of_size 5 = (5 + 3) / 4 ∧
    5 < 4 * words_of_size 5 ∧
    4 * words_of_size 5 ≤ 5 + 3 ∧
    (flash_write (idealHW 1024) 0 [7, 9] 5 memZero).1 = FlashErrCode.FLASH_NO_ERR ∧
    (∀ j, j < words_of_size 5 →
      (flash_write (idealHW 1024) 0 [7, 9] 5 memZero).2 (0 + 4 * j) = [7, 9].getD j 0) ∧
    (∀ x, (∀ j, j < words_of_size 5 → x ≠ 0 + 4 * j) →
      (flash_write (idealHW 1024) 0 [7, 9] 5 memZero).2 x = memZero x) :=
  flash_write_whole_words (idealHW 1024) 0 [7, 9] 5 memZero
    (idealHW_progLocal 1024) (idealHW_progExact 1024) (by decide) (by decide)

end EasyFlash
